import Mathlib

/-!
Shallow embedding of `src/main.py` (binaural beat generator).

Conventions:
* Python floats are modelled as exact rationals `ℚ` (for durations,
  frequencies, volumes) and exact reals `ℝ` (for the sine synthesis),
  per the spec's own real-arithmetic description of the algorithms.
* `np.arange(0, stop, step)` has length `ceil((stop - 0) / step)`
  (NumPy's documented semantics); its elements are `0, step, 2·step, …`,
  every multiple of `step` strictly below `stop`.
* `astype(np.int16)` is a C-style cast: truncation toward zero.
* Python `int(x)` truncates toward zero; Python `x % m` for `m > 0` is
  `x - m * floor(x / m)` (sign follows the divisor).
* `pydub`'s `audio + volume` is `apply_gain`: every sample is multiplied
  by `10^(volume/20)` and clipped to the int16 range (audioop.mul).
-/

namespace Pynaural

/-- Python `int(x)` on a float: truncation toward zero. -/
def pyInt (x : ℚ) : ℤ := if 0 ≤ x then ⌊x⌋ else ⌈x⌉

/-- Python float modulo `x % m` for a positive divisor `m`:
`x - m * floor(x / m)`, whose sign follows the divisor. -/
def pyMod (x m : ℚ) : ℚ := x - m * ⌊x / m⌋

/-- Length of `np.arange(0, d, 1 / sr)` — NumPy documents the length of
`arange(start, stop, step)` as `ceil((stop - start) / step)`, here
`ceil(d · sr)`; empty when `d ≤ 0`. -/
def arangeLen (d : ℚ) (sr : ℕ) : ℕ := ⌈d * (sr : ℚ)⌉₊

/-- The time axis `t = np.arange(0, d, 1 / sr)` of
`generate_binaural_beat` (line 22 of `main.py`): the multiples of
`1 / sr` lying in the half-open interval `[0, d)`. -/
def tAxis (d : ℚ) (sr : ℕ) : List ℚ :=
  (List.range (arangeLen d sr)).map fun (k : ℕ) => (k : ℚ) / (sr : ℚ)

/-- Embedding of `astype(np.int16)` applied to a real float value: C-style cast,
truncation toward zero. (No wrapping occurs in this program: the values
cast are `sin(·) * 32767 ∈ [-32767, 32767]`, inside the int16 range.) -/
noncomputable def trunc0 (x : ℝ) : ℤ := if 0 ≤ x then ⌊x⌋ else ⌈x⌉

/-- One pre-gain sample of `main.py` lines 23–24:
`(np.sin(2 * np.pi * f * t) * 32767).astype(np.int16)` at time index
`k`, where `t[k] = k / sr`. -/
noncomputable def sineSample (f : ℚ) (sr : ℕ) (k : ℕ) : ℤ :=
  trunc0 (Real.sin (2 * Real.pi * (f : ℝ) * ((k : ℝ) / (sr : ℝ))) * 32767)

/-- Embedding of `np.column_stack((left_wave, right_wave)).flatten()` (line 25):
interleaved `L0, R0, L1, R1, …` pre-gain samples. -/
noncomputable def stereoWave (fl fr : ℚ) (d : ℚ) (sr : ℕ) : List ℤ :=
  (List.range (arangeLen d sr)).flatMap fun k => [sineSample fl sr k, sineSample fr sr k]

/-- The `pydub` gain ratio `10^(volume_dbfs / 20)`. -/
noncomputable def gainFactor (v : ℚ) : ℝ := (10 : ℝ) ^ ((v : ℝ) / 20)

/-- Embedding of `audio + volume` in `pydub`: `audioop.mul` multiplies every sample by
the gain ratio, clips to the int16 range, and floors. -/
noncomputable def applyGain (v : ℚ) (xs : List ℤ) : List ℤ :=
  xs.map fun (s : ℤ) => ⌊max (-32768 : ℝ) (min 32767 ((s : ℝ) * gainFactor v))⌋

/-- Embedding of `generate_binaural_beat(frequency_left, frequency_right, duration,
volume, sample_rate)` (lines 8–31), viewed as the sample sequence the
returned `AudioSegment` carries (what `get_array_of_samples` yields). -/
noncomputable def generate_binaural_beat (fl fr d v : ℚ) (sr : ℕ) : List ℤ :=
  applyGain v (stereoWave fl fr d sr)

/-- A `ToneInstruction` dict: `left_frequency`, `right_frequency`,
`duration`, `volume` (all Python floats). -/
structure Instruction where
  left_frequency : ℚ
  right_frequency : ℚ
  duration : ℚ
  volume : ℚ
deriving DecidableEq

/-- Full-chunk count `loops = int(duration / 60)` (line 35). -/
def loops (d : ℚ) : ℤ := pyInt (d / 60)

/-- Remainder `remaining_time = duration % 60` (line 36). -/
def remaining_time (d : ℚ) : ℚ := pyMod d 60

/-- The ordered list of durations `generate_and_store_beat` passes to
`generate_binaural_beat` (lines 39–54): `range(loops)` iterations of a
60-second chunk — `range` of a negative count is empty, hence `toNat` —
then the remainder chunk when `remaining_time > 0`. -/
def chunkDurations (d : ℚ) : List ℚ :=
  List.replicate (loops d).toNat 60 ++
    (if 0 < remaining_time d then [remaining_time d] else [])

/-- Embedding of `generate_and_store_beat(instruction, beats)` (lines 33–56): for each
chunk duration in order, synthesize and `np.concatenate` onto `beats`. -/
noncomputable def generate_and_store_beat (ins : Instruction) (beats : List ℤ) : List ℤ :=
  (chunkDurations ins.duration).foldl
    (fun acc c =>
      acc ++ generate_binaural_beat ins.left_frequency ins.right_frequency c ins.volume 44100)
    beats

/-- The sequence-building loop of `main` (lines 92–93): fold
`generate_and_store_beat` over the program, starting from the empty
buffer `np.array([])`. -/
noncomputable def buildSequence (program : List Instruction) : List ℤ :=
  program.foldl (fun beats ins => generate_and_store_beat ins beats) []

/-- A compact-form spec file: `{base, program, loop}` where `loop` is
`none` when the key is absent (`new_spec.get('loop', False)`). -/
structure NewSpec where
  base : ℚ
  program : List (ℚ × ℚ)
  loop : Option Bool

/-- Embedding of `translate_new_spec_format(new_spec)` (lines 58–71): one appended
instruction per `(tone, duration)` pair, volume fixed at `-20.0`. -/
def translate_new_spec_format (s : NewSpec) : List Instruction × Bool :=
  (s.program.foldl
    (fun acc p =>
      acc ++ [{ left_frequency := s.base
                right_frequency := s.base + p.1
                duration := p.2
                volume := -20 }])
    [],
   s.loop.getD false)

/-- Nominal duration `total_duration = sum(instruction['duration'] for instruction in
instructions)` (line 105). -/
def total_duration (program : List Instruction) : ℚ :=
  (program.map (fun i => i.duration)).sum

/-- Target `desired_duration = 2 * 60 * 60` (line 106). -/
def desired_duration : ℚ := 2 * 60 * 60

/-- Tiling count `repetitions = int(desired_duration / total_duration)` (line 107). -/
def repetitions (total : ℚ) : ℤ := pyInt (desired_duration / total)

/-- The error classes this program can hit at the loop-expansion step.
No code path in `main.py` constructs a `validationError`: the source
performs no input validation. -/
inductive PyError
  | zeroDivisionError
  | validationError
deriving DecidableEq

/-- The loop-expansion block of `main` (lines 104–108): Python raises
`ZeroDivisionError` when `total_duration` is zero before `int()` is
applied; otherwise `np.tile(beats, repetitions)` tiles the buffer
end-to-end `repetitions` times. -/
def expandLoop (beats : List ℤ) (total : ℚ) : Except PyError (List ℤ) :=
  if total = 0 then Except.error PyError.zeroDivisionError
  else Except.ok (List.flatten (List.replicate (repetitions total).toNat beats))

/-- The spec-file path of `main` (lines 85–108) for a compact-form spec:
translate, build, and — when the loop flag is set — expand to the
2-hour target. -/
noncomputable def runSpecFile (s : NewSpec) : Except PyError (List ℤ) :=
  let translated := translate_new_spec_format s
  let beats := buildSequence translated.1
  if translated.2 then expandLoop beats (total_duration translated.1)
  else Except.ok beats

/-- Number of chunk-append operations (`np.concatenate` calls, lines 45
and 54) performed while building a program: one per sub-chunk. -/
def numChunks (program : List Instruction) : ℕ :=
  (program.map (fun i => (chunkDurations i.duration).length)).sum

/-! ### Helper lemmas -/

lemma foldl_append_flatMap {α β : Type} (f : α → List β) :
    ∀ (l : List α) (init : List β),
      l.foldl (fun acc a => acc ++ f a) init = init ++ l.flatMap f := by
  intro l
  induction l with
  | nil => intro init; simp
  | cons a l ih => intro init; simp [List.foldl_cons, ih]

lemma applyGain_length (v : ℚ) (xs : List ℤ) : (applyGain v xs).length = xs.length := by
  rw [applyGain, List.length_map]

lemma stereoWave_length (fl fr d : ℚ) (sr : ℕ) :
    (stereoWave fl fr d sr).length = 2 * arangeLen d sr := by
  simp [stereoWave, List.length_flatMap, Function.comp_def, List.map_const,
    List.sum_replicate, mul_comm]

lemma generate_binaural_beat_length (fl fr d v : ℚ) (sr : ℕ) :
    (generate_binaural_beat fl fr d v sr).length = 2 * arangeLen d sr := by
  rw [generate_binaural_beat, applyGain_length, stereoWave_length]

lemma generate_and_store_beat_eq (ins : Instruction) (beats : List ℤ) :
    generate_and_store_beat ins beats =
      beats ++ (chunkDurations ins.duration).flatMap
        (fun c => generate_binaural_beat ins.left_frequency ins.right_frequency c ins.volume 44100) := by
  rw [generate_and_store_beat, foldl_append_flatMap]

lemma generate_and_store_beat_length (ins : Instruction) (beats : List ℤ) :
    (generate_and_store_beat ins beats).length =
      beats.length +
        2 * ((chunkDurations ins.duration).map fun c => ⌈c * (44100 : ℚ)⌉₊).sum := by
  rw [generate_and_store_beat_eq]
  simp only [List.length_append, List.length_flatMap, Function.comp_def,
    generate_binaural_beat_length]
  congr 1
  rw [← List.sum_map_mul_left]
  simp [arangeLen]

lemma remaining_time_nonneg (d : ℚ) : 0 ≤ remaining_time d := by
  have h : (⌊d / 60⌋ : ℚ) ≤ d / 60 := Int.floor_le (d / 60)
  rw [remaining_time, pyMod]
  linarith

lemma remaining_time_lt_sixty (d : ℚ) : remaining_time d < 60 := by
  have h : d / 60 < ⌊d / 60⌋ + 1 := Int.lt_floor_add_one (d / 60)
  rw [remaining_time, pyMod]
  linarith

lemma loops_toNat_of_pos (d : ℚ) (hd : 0 < d) : (loops d).toNat = ⌊d / 60⌋₊ := by
  rw [loops, pyInt, if_pos (by positivity), Int.floor_toNat]

lemma chunkDurations_pos (d : ℚ) : ∀ c ∈ chunkDurations d, 0 < c := by
  intro c hc
  rw [chunkDurations] at hc
  rcases List.mem_append.mp hc with h | h
  · rw [List.eq_of_mem_replicate h]; norm_num
  · rcases em (0 < remaining_time d) with hr | hr
    · rw [if_pos hr, List.mem_singleton] at h
      rw [h]; exact hr
    · rw [if_neg hr] at h
      exact absurd h (List.not_mem_nil c)

lemma chunkDurations_le_sixty (d : ℚ) : ∀ c ∈ chunkDurations d, c ≤ 60 := by
  intro c hc
  rw [chunkDurations] at hc
  rcases List.mem_append.mp hc with h | h
  · rw [List.eq_of_mem_replicate h]
  · rcases em (0 < remaining_time d) with hr | hr
    · rw [if_pos hr, List.mem_singleton] at h
      rw [h]
      exact (remaining_time_lt_sixty d).le
    · rw [if_neg hr] at h
      exact absurd h (List.not_mem_nil c)

lemma chunkDurations_sum (d : ℚ) (hd : 0 < d) : (chunkDurations d).sum = d := by
  have hfl : ((⌊d / 60⌋₊ : ℚ)) = (⌊d / 60⌋ : ℚ) :=
    natCast_floor_eq_intCast_floor (by positivity)
  rw [chunkDurations, List.sum_append, List.sum_replicate, loops_toNat_of_pos d hd,
    nsmul_eq_mul, hfl]
  rcases em (0 < remaining_time d) with hr | hr
  · rw [if_pos hr, List.sum_singleton, remaining_time, pyMod]
    ring
  · rw [if_neg hr, List.sum_nil, add_zero]
    have h0 : remaining_time d = 0 :=
      le_antisymm (not_lt.mp hr) (remaining_time_nonneg d)
    rw [remaining_time, pyMod] at h0
    linarith

lemma chunkDurations_eval (d : ℚ) (n : ℕ) (hd : 0 ≤ d) (hn : (⌊d / 60⌋ : ℤ) = (n : ℤ)) :
    chunkDurations d =
      List.replicate n 60 ++
        (if 0 < d - 60 * (n : ℚ) then [d - 60 * (n : ℚ)] else []) := by
  rw [chunkDurations, loops, remaining_time, pyInt,
    if_pos (by positivity : (0 : ℚ) ≤ d / 60), pyMod, hn]
  simp

lemma sum_map_flatMap {α β : Type} (l : List α) (f : α → List β) (g : β → ℕ) :
    ((l.flatMap f).map g).sum = (l.map fun a => ((f a).map g).sum).sum := by
  rw [List.map_flatMap, List.flatMap, List.sum_flatten, List.map_map]
  rfl

lemma buildSequence_foldl_length (program : List Instruction) :
    ∀ beats : List ℤ,
      (program.foldl (fun bs ins => generate_and_store_beat ins bs) beats).length =
        beats.length +
          2 * (program.map fun i =>
            ((chunkDurations i.duration).map fun c => ⌈c * (44100 : ℚ)⌉₊).sum).sum := by
  induction program with
  | nil => intro beats; simp
  | cons ins rest ih =>
    intro beats
    rw [List.foldl_cons, ih, generate_and_store_beat_length,
      List.map_cons, List.sum_cons]
    ring

lemma buildSequence_length (program : List Instruction) :
    (buildSequence program).length =
      2 * (program.map fun i =>
        ((chunkDurations i.duration).map fun c => ⌈c * (44100 : ℚ)⌉₊).sum).sum := by
  rw [buildSequence, buildSequence_foldl_length]
  simp

lemma chunkDurations_length_of_pos (d : ℚ) (hd : 0 < d) :
    (chunkDurations d).length =
      ⌊d / 60⌋₊ + (if 0 < remaining_time d then 1 else 0) := by
  rw [chunkDurations, List.length_append, List.length_replicate, loops_toNat_of_pos d hd]
  rcases em (0 < remaining_time d) with hr | hr
  · rw [if_pos hr, if_pos hr, List.length_singleton]
  · rw [if_neg hr, if_neg hr, List.length_nil]

/-! ### Claim theorems -/

/-- C1 counterexample: for the singleton program of duration `1/88200`
seconds, the built buffer has length `2 · ⌈1/2⌉ = 2`, while the claimed
formula `2 × Σ floor(chunk_duration × 44100)` gives `2 · ⌊1/2⌋ = 0`:
the claim is false as stated. -/
theorem C1_floor_formula_cex :
    ¬ ((buildSequence [(⟨440, 444, 1/88200, -20⟩ : Instruction)]).length =
        2 * (([(⟨440, 444, 1/88200, -20⟩ : Instruction)].flatMap
                fun i => chunkDurations i.duration).map
              fun c => ⌊c * (44100 : ℚ)⌋₊).sum) := by
  intro h
  have hchunk : chunkDurations ((1 : ℚ)/88200) = [1/88200] := by
    rw [chunkDurations_eval (1/88200) 0 (by norm_num) (by norm_num)]
    norm_num
  have e1 : ((1 : ℚ)/88200) * 44100 = 1/2 := by norm_num
  have hceil : ⌈((1 : ℚ)/88200) * 44100⌉₊ = 1 := by
    rw [e1, Nat.ceil_eq_iff] <;> norm_num
  have hfloor : ⌊((1 : ℚ)/88200) * 44100⌋₊ = 0 := by
    rw [e1, Nat.floor_eq_iff] <;> norm_num
  rw [buildSequence_length] at h
  simp only [List.flatMap_cons, List.flatMap_nil, List.append_nil, List.map_cons,
    List.map_nil, List.sum_cons, List.sum_nil, hchunk, hceil, hfloor] at h
  norm_num at h

/-- C1 (amended): for every instruction list, the length of the sample
buffer produced by the sequence builder equals 2 × the sum over every
sub-chunk (60-second pieces plus remainder) of
`ceil(chunk_duration × 44100)` — the ceiling rather than the floor,
because `np.arange(0, d, 1/sr)` keeps the final partial step. -/
theorem C1_length_formula_ceil (program : List Instruction) :
    (buildSequence program).length =
      2 * ((program.flatMap fun i => chunkDurations i.duration).map
        fun c => ⌈c * (44100 : ℚ)⌉₊).sum := by
  rw [buildSequence_length, sum_map_flatMap]

/-- C2: for every positive duration `d`, the chunk durations passed to
the synthesizer are each positive and at most 60, sum exactly to `d`,
and consist of `⌊d / 60⌋` full 60-second chunks followed by one
remainder chunk of `d mod 60`, the remainder chunk omitted entirely
when the remainder is 0; moreover `chunk(150) = [60, 60, 30]`,
`chunk(60) = [60]` and `chunk(45) = [45]`. -/
theorem C2_chunking :
    (∀ d : ℚ, 0 < d →
      (∀ c ∈ chunkDurations d, 0 < c ∧ c ≤ 60) ∧
      (chunkDurations d).sum = d ∧
      chunkDurations d =
        List.replicate ⌊d / 60⌋₊ 60 ++
          (if pyMod d 60 = 0 then [] else [pyMod d 60])) ∧
    chunkDurations 150 = [60, 60, 30] ∧
    chunkDurations 60 = [60] ∧
    chunkDurations 45 = [45] := by
  refine ⟨fun d hd => ⟨fun c hc => ⟨chunkDurations_pos d c hc, chunkDurations_le_sixty d c hc⟩,
    chunkDurations_sum d hd, ?_⟩, ?_, ?_, ?_⟩
  case refine_2 =>
    rw [chunkDurations_eval 150 2 (by norm_num) (by norm_num)]
    norm_num
    rfl
  case refine_3 =>
    rw [chunkDurations_eval 60 1 (by norm_num) (by norm_num)]
    norm_num
  case refine_4 =>
    rw [chunkDurations_eval 45 0 (by norm_num) (by norm_num)]
    norm_num
  rw [chunkDurations, loops_toNat_of_pos d hd]
  congr 1
  rcases em (pyMod d 60 = 0) with h0 | h0
  · rw [if_pos h0, if_neg]
    rw [remaining_time, h0]
    exact lt_irrefl 0
  · rw [if_neg h0, if_pos]
    · rw [remaining_time]
    · exact lt_of_le_of_ne (remaining_time_nonneg d) fun h => h0 (by rw [remaining_time] at h; exact h.symm)

/-- C2 witness: the general part of `C2_chunking` instantiated at
duration 150 agrees with the concrete example. -/
theorem C2_chunking_witness :
    chunkDurations 150 = [60, 60, 30] ∧ (chunkDurations 150).sum = 150 :=
  ⟨C2_chunking.2.1, (C2_chunking.1 150 (by norm_num)).2.1⟩

/-- C3 counterexample: `generate_binaural_beat` with duration 1/2 and
sample rate 3 produces `2 · ⌈3/2⌉ = 4` samples (2 frames per channel),
not `2 · ⌊3/2⌋ = 2` as the claimed floor formula would give. -/
theorem C3_floor_count_cex :
    ¬ ((generate_binaural_beat 440 444 (1/2) (-20) 3).length =
        2 * ⌊(1/2 : ℚ) * ((3 : ℕ) : ℚ)⌋₊) := by
  have hc : ⌈(1/2 : ℚ) * ((3 : ℕ) : ℚ)⌉₊ = 2 := by
    rw [(by norm_num : (1/2 : ℚ) * ((3 : ℕ) : ℚ) = 3/2), Nat.ceil_eq_iff] <;> norm_num
  have hf : ⌊(1/2 : ℚ) * ((3 : ℕ) : ℚ)⌋₊ = 1 := by
    rw [(by norm_num : (1/2 : ℚ) * ((3 : ℕ) : ℚ) = 3/2), Nat.floor_eq_iff] <;> norm_num
  rw [generate_binaural_beat_length, arangeLen, hc, hf]
  norm_num

/-- C3 (amended): for duration > 0 and sample rate > 0 the synthesizer
generates `⌈duration · sample_rate⌉` frames per channel (buffer length
`2 · ⌈duration · sample_rate⌉`): the time axis is the half-open range
`[0, duration)` stepped by `1/sample_rate` — every multiple of the step
below `duration`, so the final partial step is kept (count rounds up,
never down). -/
theorem C3_sample_count_ceil (fl fr d v : ℚ) (sr : ℕ) (_hd : 0 < d) (hsr : 0 < sr) :
    (generate_binaural_beat fl fr d v sr).length = 2 * ⌈d * (sr : ℚ)⌉₊ ∧
    (tAxis d sr).length = ⌈d * (sr : ℚ)⌉₊ ∧
    (∀ t ∈ tAxis d sr, 0 ≤ t ∧ t < d) ∧
    d ≤ (⌈d * (sr : ℚ)⌉₊ : ℚ) / (sr : ℚ) := by
  have hsr' : (0 : ℚ) < (sr : ℚ) := by exact_mod_cast hsr
  refine ⟨generate_binaural_beat_length fl fr d v sr, ?_, ?_, ?_⟩
  · rw [tAxis, List.length_map, List.length_range, arangeLen]
  · intro t ht
    rw [tAxis] at ht
    rcases List.mem_map.mp ht with ⟨k, hk, rfl⟩
    rw [List.mem_range, arangeLen] at hk
    constructor
    · positivity
    · rw [div_lt_iff₀ hsr']
      exact Nat.lt_ceil.mp hk
  · rw [le_div_iff₀ hsr']
    exact Nat.le_ceil (d * (sr : ℚ))

/-- C3 witness: at duration 3/2 and sample rate 2 the buffer has
`2 · ⌈3⌉ = 6` samples, i.e. 3 frames per channel. -/
theorem C3_sample_count_ceil_witness :
    (generate_binaural_beat 440 444 (3/2) (-20) 2).length = 6 := by
  have h := (C3_sample_count_ceil 440 444 (3/2) (-20) 2 (by norm_num) (by norm_num)).1
  rw [h]
  norm_num

/-- C4: for a buffer of nominal duration `total > 0`, loop expansion
divides the fixed 2-hour target by `total`, truncates to
`⌊7200 / total⌋` repetitions, and tiles the buffer end-to-end that many
times (the empty buffer when the quotient is 0); at `total = 10` the
output is 720 × the input length. -/
theorem C4_loop_expansion (beats : List ℤ) (total : ℚ) (htot : 0 < total) :
    expandLoop beats total =
      Except.ok (List.flatten (List.replicate ⌊desired_duration / total⌋₊ beats)) ∧
    (List.flatten (List.replicate ⌊desired_duration / total⌋₊ beats)).length =
      ⌊desired_duration / total⌋₊ * beats.length ∧
    (⌊desired_duration / total⌋₊ = 0 → expandLoop beats total = Except.ok []) ∧
    (total = 10 →
      (List.flatten (List.replicate ⌊desired_duration / total⌋₊ beats)).length =
        720 * beats.length) := by
  have hrep : (repetitions total).toNat = ⌊desired_duration / total⌋₊ := by
    rw [repetitions, pyInt, if_pos (by rw [desired_duration]; positivity), Int.floor_toNat]
  have hok : expandLoop beats total =
      Except.ok (List.flatten (List.replicate ⌊desired_duration / total⌋₊ beats)) := by
    rw [expandLoop, if_neg htot.ne', hrep]
  have hlen : (List.flatten (List.replicate ⌊desired_duration / total⌋₊ beats)).length =
      ⌊desired_duration / total⌋₊ * beats.length := by
    rw [List.length_flatten, List.map_replicate, List.sum_replicate, smul_eq_mul]
  refine ⟨hok, hlen, fun h0 => ?_, fun h10 => ?_⟩
  · rw [hok, h0]
    rfl
  · rw [hlen, h10]
    norm_num [desired_duration]

/-- C4 witness: tiling the two-sample buffer `[0, 1]` with nominal
duration 10 yields `⌊7200/10⌋ = 720` repetitions, `1440` samples. -/
theorem C4_loop_expansion_witness :
    (List.flatten (List.replicate ⌊desired_duration / (10 : ℚ)⌋₊ [(0 : ℤ), 1])).length =
      720 * 2 := by
  have h := (C4_loop_expansion [(0 : ℤ), 1] 10 (by norm_num)).2.2.2 rfl
  simpa using h

lemma translate_fst_eq_map (s : NewSpec) :
    (translate_new_spec_format s).1 =
      s.program.map fun p => (⟨s.base, s.base + p.1, p.2, -20⟩ : Instruction) := by
  rw [translate_new_spec_format, foldl_append_flatMap]
  generalize s.program = l
  induction l with
  | nil => rfl
  | cons p l ih => simp only [List.flatMap_cons, List.map_cons, List.nil_append,
      List.flatMap_nil] at ih ⊢; rw [List.cons_append, List.nil_append, ih]

/-- C5: translating a compact-form spec yields, in pair order, one
instruction per `(tone_offset, duration)` pair with
`left = base, right = base + tone_offset`, the given duration and the
default volume `-20.0`; a missing `loop` key defaults to `false`; the
loop flag does not affect the instruction list (hence not the built
buffer); the example `{base: 440, program: [[4, 30], [8, 60]],
loop: true}` expands to the two stated instructions with `loop = true`. -/
theorem C5_translate :
    (∀ s : NewSpec,
      (translate_new_spec_format s).1 =
        s.program.map (fun p => (⟨s.base, s.base + p.1, p.2, -20⟩ : Instruction)) ∧
      (translate_new_spec_format s).2 = s.loop.getD false) ∧
    (∀ base program, (translate_new_spec_format ⟨base, program, none⟩).2 = false) ∧
    (∀ s b, (translate_new_spec_format ⟨s.base, s.program, b⟩).1 =
      (translate_new_spec_format s).1) ∧
    (∀ s b, buildSequence (translate_new_spec_format ⟨s.base, s.program, b⟩).1 =
      buildSequence (translate_new_spec_format s).1) ∧
    translate_new_spec_format ⟨440, [(4, 30), (8, 60)], some true⟩ =
      ([⟨440, 444, 30, -20⟩, ⟨440, 448, 60, -20⟩], true) := by
  have hfst : ∀ s b, (translate_new_spec_format ⟨s.base, s.program, b⟩).1 =
      (translate_new_spec_format s).1 := by
    intro s b
    rw [translate_fst_eq_map, translate_fst_eq_map]
  refine ⟨fun s => ⟨translate_fst_eq_map s, rfl⟩, fun base program => rfl,
    hfst, fun s b => by rw [hfst s b], ?_⟩
  rw [translate_new_spec_format]
  norm_num

lemma flatMap_pair_getElem {α β : Type} (a b : α → β) :
    ∀ (l : List α) (i : ℕ) (h : i < l.length),
      ((l.flatMap fun y => [a y, b y])[2 * i]? = some (a (l.get ⟨i, h⟩)) ∧
       (l.flatMap fun y => [a y, b y])[2 * i + 1]? = some (b (l.get ⟨i, h⟩))) := by
  intro l
  induction l with
  | nil =>
    intro i h
    exact absurd h (by simp)
  | cons x xs ih =>
    intro i h
    cases i with
    | zero => constructor <;> simp [List.flatMap_cons]
    | succ i =>
      have h2 : 2 * (i + 1) = (2 * i + 1) + 1 := by ring
      have hi : i < xs.length := Nat.lt_of_succ_lt_succ h
      rcases ih i hi with ⟨ih1, ih2⟩
      have hget : (x :: xs).get ⟨i + 1, h⟩ = xs.get ⟨i, hi⟩ := rfl
      rw [List.flatMap_cons, List.cons_append, List.cons_append, List.nil_append, h2, hget,
        List.getElem?_cons_succ, List.getElem?_cons_succ, List.getElem?_cons_succ,
        List.getElem?_cons_succ]
      exact ⟨ih1, ih2⟩

lemma sineSample_le (f : ℚ) (sr : ℕ) (k : ℕ) :
    -32767 ≤ sineSample f sr k ∧ sineSample f sr k ≤ 32767 := by
  have hs1 : Real.sin (2 * Real.pi * (f : ℝ) * ((k : ℝ) / (sr : ℝ))) ≤ 1 :=
    Real.sin_le_one _
  have hs2 : -1 ≤ Real.sin (2 * Real.pi * (f : ℝ) * ((k : ℝ) / (sr : ℝ))) :=
    Real.neg_one_le_sin _
  rw [sineSample, trunc0]
  split_ifs with h0
  · constructor
    · calc (-32767 : ℤ) ≤ 0 := by norm_num
        _ ≤ ⌊Real.sin (2 * Real.pi * (f : ℝ) * ((k : ℝ) / (sr : ℝ))) * 32767⌋ :=
          Int.floor_nonneg.mpr h0
    · have : Real.sin (2 * Real.pi * (f : ℝ) * ((k : ℝ) / (sr : ℝ))) * 32767 ≤ 32767 := by
        nlinarith
      calc ⌊Real.sin (2 * Real.pi * (f : ℝ) * ((k : ℝ) / (sr : ℝ))) * 32767⌋
          ≤ ⌊(32767 : ℝ)⌋ := Int.floor_le_floor this
        _ = 32767 := by norm_num
  · constructor
    · have : ((-32767 : ℤ) : ℝ) ≤ Real.sin (2 * Real.pi * (f : ℝ) * ((k : ℝ) / (sr : ℝ))) * 32767 := by
        push_cast
        nlinarith
      calc (-32767 : ℤ) = ⌈((-32767 : ℤ) : ℝ)⌉ := (Int.ceil_intCast _).symm
        _ ≤ ⌈Real.sin (2 * Real.pi * (f : ℝ) * ((k : ℝ) / (sr : ℝ))) * 32767⌉ :=
          Int.ceil_le_ceil this
    · calc ⌈Real.sin (2 * Real.pi * (f : ℝ) * ((k : ℝ) / (sr : ℝ))) * 32767⌉
          ≤ ⌈(0 : ℝ)⌉ := Int.ceil_le_ceil (le_of_not_le h0)
        _ ≤ 32767 := by norm_num

/-- C6 counterexample: at `left_freq = 1`, `sample_rate = 12`, index
`i = 1` the phase is `π/6`, so the pre-gain value is
`astype`-truncation `⌊0.5 · 32767⌋ = 16383`, while the claimed
`round(0.5 · 32767)` is `16384`: the code truncates toward zero, it
does not round. -/
theorem C6_round_cex :
    sineSample 1 12 1 ≠
      round (Real.sin (2 * Real.pi * ((1 : ℚ) : ℝ) * (((1 : ℕ) : ℝ) / ((12 : ℕ) : ℝ))) * 32767) := by
  have hθ : 2 * Real.pi * ((1 : ℚ) : ℝ) * (((1 : ℕ) : ℝ) / ((12 : ℕ) : ℝ)) = Real.pi / 6 := by
    push_cast
    ring
  have hs : Real.sin (2 * Real.pi * ((1 : ℚ) : ℝ) * (((1 : ℕ) : ℝ) / ((12 : ℕ) : ℝ))) = 1/2 := by
    rw [hθ, Real.sin_pi_div_six]
  have h1 : trunc0 ((1/2 : ℝ) * 32767) = 16383 := by
    rw [trunc0, if_pos (by norm_num)]
    norm_num
  have h2 : round ((1/2 : ℝ) * 32767) = 16384 := by
    norm_num [round_eq]
  rw [sineSample, hs, h1, h2]
  norm_num

/-- C6 (amended): for every sample index `i` of a synthesized segment,
the pre-gain left sample is the `astype(int16)` truncation toward zero
of `sin(2π · left_freq · i / sample_rate) × 32767` (the right sample
analogous), interleaved at positions `2i` and `2i + 1`; the values
necessarily lie within the int16 range `[-32768, 32767]` (indeed within
`[-32767, 32767]`, so the cast never wraps and no clamping is needed). -/
theorem C6_sample_values_trunc (fl fr d : ℚ) (sr : ℕ) (i : ℕ)
    (h : i < arangeLen d sr) :
    (stereoWave fl fr d sr)[2 * i]? = some (sineSample fl sr i) ∧
    (stereoWave fl fr d sr)[2 * i + 1]? = some (sineSample fr sr i) ∧
    sineSample fl sr i =
      trunc0 (Real.sin (2 * Real.pi * (fl : ℝ) * ((i : ℝ) / (sr : ℝ))) * 32767) ∧
    (-32768 ≤ sineSample fl sr i ∧ sineSample fl sr i ≤ 32767) ∧
    (-32768 ≤ sineSample fr sr i ∧ sineSample fr sr i ≤ 32767) := by
  have hmem : i < (List.range (arangeLen d sr)).length := by
    rw [List.length_range]
    exact h
  have hpair := flatMap_pair_getElem (fun k => sineSample fl sr k)
    (fun k => sineSample fr sr k) (List.range (arangeLen d sr)) i hmem
  have hget : (List.range (arangeLen d sr)).get ⟨i, hmem⟩ = i := List.get_range i hmem
  rw [hget] at hpair
  refine ⟨hpair.1, hpair.2, rfl, ?_, ?_⟩
  · rcases sineSample_le fl sr i with ⟨hlo, hhi⟩
    exact ⟨by omega, hhi⟩
  · rcases sineSample_le fr sr i with ⟨hlo, hhi⟩
    exact ⟨by omega, hhi⟩

/-- C6 witness: instantiated at `fl = 1, fr = 2, d = 1, sr = 1, i = 0`
(a one-sample buffer). -/
theorem C6_sample_values_trunc_witness :
    (stereoWave 1 2 1 1)[2 * 0]? = some (sineSample 1 1 0) ∧
    (stereoWave 1 2 1 1)[2 * 0 + 1]? = some (sineSample 2 1 0) ∧
    sineSample 1 1 0 =
      trunc0 (Real.sin (2 * Real.pi * ((1 : ℚ) : ℝ) * (((0 : ℕ) : ℝ) / ((1 : ℕ) : ℝ))) * 32767) ∧
    (-32768 ≤ sineSample 1 1 0 ∧ sineSample 1 1 0 ≤ 32767) ∧
    (-32768 ≤ sineSample 2 1 0 ∧ sineSample 2 1 0 ≤ 32767) :=
  C6_sample_values_trunc 1 2 1 1 0 (by norm_num [arangeLen])

/-- C7: running a compact-form program with the loop flag set and zero
total nominal duration fails with `ZeroDivisionError` propagated from
`repetitions = int(desired_duration / total_duration)`: the source
performs no validation and never raises a `ValidationError`. The claim
that a `ValidationError` is raised before loop expansion is the spec's
stated requirement; the code does not implement it. -/
theorem C7_zero_duration_zero_division :
    runSpecFile ⟨440, [], some true⟩ = Except.error PyError.zeroDivisionError ∧
    runSpecFile ⟨440, [], some true⟩ ≠ Except.error PyError.validationError := by
  have h : runSpecFile ⟨440, [], some true⟩ = Except.error PyError.zeroDivisionError := rfl
  refine ⟨h, ?_⟩
  rw [h]
  intro hcontra
  exact absurd (Except.error.inj hcontra) (by simp)

lemma expandLoop_ok_length (beats : List ℤ) (total : ℚ) (out : List ℤ)
    (h : expandLoop beats total = Except.ok out) :
    out.length = (repetitions total).toNat * beats.length := by
  rw [expandLoop] at h
  split_ifs at h with h0
  have hout : List.flatten (List.replicate (repetitions total).toNat beats) = out :=
    Except.ok.inj h
  rw [← hout, List.length_flatten, List.map_replicate, List.sum_replicate, smul_eq_mul]

lemma cast_sum_map {α : Type} (l : List α) (f : α → ℕ) :
    (((l.map f).sum : ℕ) : ℚ) = (l.map fun x => ((f x : ℕ) : ℚ)).sum := by
  rw [Nat.cast_list_sum, List.map_map]
  rfl

lemma ceil_sum_bounds (l : List ℚ) (h : ∀ c ∈ l, 0 ≤ c) :
    l.sum * 44100 ≤ (l.map fun c => ((⌈c * (44100 : ℚ)⌉₊ : ℕ) : ℚ)).sum ∧
    (l.map fun c => ((⌈c * (44100 : ℚ)⌉₊ : ℕ) : ℚ)).sum ≤ l.sum * 44100 + l.length := by
  induction l with
  | nil => simp
  | cons c t ih =>
    have hc : 0 ≤ c := h c (List.mem_cons_self c t)
    have ht := ih fun x hx => h x (List.mem_cons_of_mem c hx)
    have h1 : c * 44100 ≤ (⌈c * (44100 : ℚ)⌉₊ : ℚ) := Nat.le_ceil _
    have h2 : (⌈c * (44100 : ℚ)⌉₊ : ℚ) < c * 44100 + 1 :=
      Nat.ceil_lt_add_one (by positivity)
    simp only [List.map_cons, List.sum_cons, List.length_cons]
    push_cast
    constructor
    · nlinarith [ht.1]
    · nlinarith [ht.2]

lemma instr_frames_bounds (d : ℚ) (hd : 0 < d) :
    d * 44100 ≤ ((((chunkDurations d).map fun c => ⌈c * (44100 : ℚ)⌉₊).sum : ℕ) : ℚ) ∧
    ((((chunkDurations d).map fun c => ⌈c * (44100 : ℚ)⌉₊).sum : ℕ) : ℚ) ≤
      d * 44100 + ((chunkDurations d).length : ℚ) := by
  have hcs := ceil_sum_bounds (chunkDurations d)
    fun c hc => (chunkDurations_pos d c hc).le
  rw [chunkDurations_sum d hd] at hcs
  rw [cast_sum_map]
  exact hcs

/-- Total frame count of the built buffer: per-channel sample counts,
one `⌈chunk · 44100⌉` term per synthesized sub-chunk. -/
def totalCeilFrames (program : List Instruction) : ℕ :=
  (program.map fun i => ((chunkDurations i.duration).map fun c => ⌈c * (44100 : ℚ)⌉₊).sum).sum

lemma totalCeilFrames_bounds (program : List Instruction)
    (hpos : ∀ i ∈ program, 0 < i.duration) :
    total_duration program * 44100 ≤ (totalCeilFrames program : ℚ) ∧
    (totalCeilFrames program : ℚ) ≤
      total_duration program * 44100 + (numChunks program : ℚ) := by
  induction program with
  | nil => simp [totalCeilFrames, total_duration, numChunks]
  | cons i t ih =>
    have hd : 0 < i.duration := hpos i (List.mem_cons_self i t)
    have ht := ih fun j hj => hpos j (List.mem_cons_of_mem i hj)
    have hcs := instr_frames_bounds i.duration hd
    simp only [totalCeilFrames, total_duration, numChunks, List.map_cons,
      List.sum_cons] at ht ⊢
    rw [Nat.cast_add, Nat.cast_add]
    constructor
    · nlinarith [ht.1, hcs.1]
    · nlinarith [ht.2, hcs.2]

lemma buildSequence_length_frames (program : List Instruction) :
    (buildSequence program).length = 2 * totalCeilFrames program := by
  rw [buildSequence_length, totalCeilFrames]

/-- C8: every buffer the core produces has even length (whole L/R
frames): each synthesized segment, the built sequence, and any
successful loop expansion of an even buffer; and for programs of
positive durations the per-channel frame count of the built buffer
equals `round(total_duration · 44100)` within `+1` frame per
concatenation boundary (one `np.concatenate` call per sub-chunk,
counted by `numChunks`; the deviation is one-sided, never below). -/
theorem C8_even_and_frame_count :
    (∀ fl fr d v : ℚ, ∀ sr : ℕ, (generate_binaural_beat fl fr d v sr).length % 2 = 0) ∧
    (∀ program : List Instruction, (buildSequence program).length % 2 = 0) ∧
    (∀ (beats : List ℤ) (total : ℚ) (out : List ℤ), beats.length % 2 = 0 →
      expandLoop beats total = Except.ok out → out.length % 2 = 0) ∧
    (∀ program : List Instruction, (∀ i ∈ program, 0 < i.duration) →
      round (total_duration program * 44100) ≤
        (((buildSequence program).length / 2 : ℕ) : ℤ) ∧
      (((buildSequence program).length / 2 : ℕ) : ℤ) ≤
        round (total_duration program * 44100) + (numChunks program : ℤ)) := by
  refine ⟨fun fl fr d v sr => ?_, fun program => ?_, fun beats total out hb hout => ?_,
    fun program hpos => ?_⟩
  · rw [generate_binaural_beat_length]
    omega
  · rw [buildSequence_length_frames]
    omega
  · obtain ⟨k, hk⟩ : ∃ k, beats.length = 2 * k := ⟨beats.length / 2, by omega⟩
    rw [expandLoop_ok_length beats total out hout, hk,
      show (repetitions total).toNat * (2 * k) = 2 * ((repetitions total).toNat * k) by ring]
    omega
  · have hb := totalCeilFrames_bounds program hpos
    have hlen : (buildSequence program).length / 2 = totalCeilFrames program := by
      rw [buildSequence_length_frames]
      omega
    rw [hlen]
    have hup : (round (total_duration program * 44100) : ℚ) ≤
        total_duration program * 44100 + 1/2 := round_le_add_half _
    have hdown : total_duration program * 44100 - 1/2 <
        (round (total_duration program * 44100) : ℚ) := sub_half_lt_round _
    constructor
    · have h1 : (round (total_duration program * 44100) : ℚ) <
          (totalCeilFrames program : ℚ) + 1 := by linarith [hb.1]
      have h2 : round (total_duration program * 44100) <
          (totalCeilFrames program : ℤ) + 1 := by exact_mod_cast h1
      omega
    · have h1 : (totalCeilFrames program : ℚ) <
          (round (total_duration program * 44100) : ℚ) + (numChunks program : ℚ) + 1 := by
        linarith [hb.2]
      have h2 : (totalCeilFrames program : ℤ) <
          round (total_duration program * 44100) + (numChunks program : ℤ) + 1 := by
        exact_mod_cast h1
      omega

/-- C8 witness: the frame-count part instantiated at the one-instruction
program of duration 60 (one chunk, exact frame count). -/
theorem C8_even_and_frame_count_witness :
    round (total_duration [(⟨440, 444, 60, -20⟩ : Instruction)] * 44100) ≤
      (((buildSequence [(⟨440, 444, 60, -20⟩ : Instruction)]).length / 2 : ℕ) : ℤ) ∧
    (((buildSequence [(⟨440, 444, 60, -20⟩ : Instruction)]).length / 2 : ℕ) : ℤ) ≤
      round (total_duration [(⟨440, 444, 60, -20⟩ : Instruction)] * 44100) +
        (numChunks [(⟨440, 444, 60, -20⟩ : Instruction)] : ℤ) :=
  C8_even_and_frame_count.2.2.2 [(⟨440, 444, 60, -20⟩ : Instruction)]
    (by
      intro i hi
      rw [List.mem_singleton] at hi
      subst hi
      norm_num)

/-- C9: synthesis is deterministic — two calls to the synthesizer with
identical arguments (left frequency, right frequency, duration, volume,
sample rate) return identical sample buffers: the embedding of
`generate_binaural_beat` is a pure function of its five arguments,
with no hidden state (matching the source, which reads nothing but its
parameters). -/
theorem C9_determinism (fl1 fr1 d1 v1 : ℚ) (sr1 : ℕ) (fl2 fr2 d2 v2 : ℚ) (sr2 : ℕ)
    (hfl : fl1 = fl2) (hfr : fr1 = fr2) (hd : d1 = d2) (hv : v1 = v2) (hsr : sr1 = sr2) :
    generate_binaural_beat fl1 fr1 d1 v1 sr1 = generate_binaural_beat fl2 fr2 d2 v2 sr2 := by
  rw [hfl, hfr, hd, hv, hsr]

/-- C9 witness: the default CLI call compared with itself. -/
theorem C9_determinism_witness :
    generate_binaural_beat 440 444 10 (-20) 44100 =
      generate_binaural_beat 440 444 10 (-20) 44100 :=
  C9_determinism 440 444 10 (-20) 44100 440 444 10 (-20) 44100 rfl rfl rfl rfl rfl

/-- C10 counterexample: at duration −60 (a negative multiple of 60) the
remainder `−60 mod 60` is 0 and `int(−60 / 60) = −1` yields no full
chunks, so building appends nothing at all — contradicting the claim
that a negative duration never appends nothing. -/
theorem C10_negative_multiple_cex :
    generate_and_store_beat (⟨440, 444, -60, -20⟩ : Instruction) [] = [] := by
  have hq : ((-60 : ℚ)) / 60 = ((-1 : ℤ) : ℚ) := by push_cast; ring
  have hchunks : chunkDurations (-60 : ℚ) = [] := by
    rw [chunkDurations, loops, remaining_time, pyInt, pyMod, hq, Int.floor_intCast,
      Int.ceil_intCast, if_neg (by norm_num)]
    norm_num
  show (chunkDurations (-60 : ℚ)).foldl _ [] = []
  rw [hchunks]
  rfl

/-- C10 (amended): for every instruction with negative duration,
building raises no error; `int(duration / 60)` is nonpositive and
contributes no full 60-second chunks, and exactly the Python remainder
`duration mod 60 ∈ [0, 60)` seconds are appended — which is nothing
precisely when the duration is a negative multiple of 60 (remainder 0),
and otherwise a positive remainder segment (e.g. duration −30 appends
30 seconds). -/
theorem C10_negative_duration (ins : Instruction) (hneg : ins.duration < 0) :
    loops ins.duration ≤ 0 ∧
    (loops ins.duration).toNat = 0 ∧
    (0 ≤ remaining_time ins.duration ∧ remaining_time ins.duration < 60) ∧
    chunkDurations ins.duration =
      (if 0 < remaining_time ins.duration then [remaining_time ins.duration] else []) ∧
    (remaining_time ins.duration = 0 ↔ ∃ n : ℕ, ins.duration = -(60 * (n : ℚ))) ∧
    ∀ beats : List ℤ, (generate_and_store_beat ins beats).length =
      beats.length +
        (if 0 < remaining_time ins.duration
         then 2 * ⌈remaining_time ins.duration * (44100 : ℚ)⌉₊ else 0) := by
  have hdiv : ins.duration / 60 < 0 := div_neg_of_neg_of_pos hneg (by norm_num)
  have hloops : loops ins.duration ≤ 0 := by
    rw [loops, pyInt, if_neg (not_le.mpr hdiv)]
    exact Int.ceil_le.mpr (by exact_mod_cast hdiv.le)
  have htoNat : (loops ins.duration).toNat = 0 := Int.toNat_of_nonpos hloops
  have hchunks : chunkDurations ins.duration =
      (if 0 < remaining_time ins.duration then [remaining_time ins.duration] else []) := by
    rw [chunkDurations, htoNat, List.replicate_zero, List.nil_append]
  refine ⟨hloops, htoNat,
    ⟨remaining_time_nonneg ins.duration, remaining_time_lt_sixty ins.duration⟩,
    hchunks, ?_, ?_⟩
  · constructor
    · intro h0
      rw [remaining_time, pyMod] at h0
      refine ⟨(-⌊ins.duration / 60⌋).toNat, ?_⟩
      have hm : ⌊ins.duration / 60⌋ < 0 := by
        by_contra hm
        push_neg at hm
        have : (0 : ℚ) ≤ 60 * (⌊ins.duration / 60⌋ : ℚ) := by positivity
        nlinarith
      have hnn : 0 ≤ -⌊ins.duration / 60⌋ := by omega
      have htn : ((-⌊ins.duration / 60⌋).toNat : ℤ) = -⌊ins.duration / 60⌋ :=
        Int.toNat_of_nonneg hnn
      have hcast : (((-⌊ins.duration / 60⌋).toNat : ℕ) : ℚ) = -(⌊ins.duration / 60⌋ : ℚ) := by
        calc (((-⌊ins.duration / 60⌋).toNat : ℕ) : ℚ)
            = (((-⌊ins.duration / 60⌋).toNat : ℤ) : ℚ) := by push_cast; ring
          _ = ((-⌊ins.duration / 60⌋ : ℤ) : ℚ) := by rw [htn]
          _ = -(⌊ins.duration / 60⌋ : ℚ) := by push_cast; ring
      rw [hcast]
      linarith
    · rintro ⟨n, hn⟩
      have hfl : (⌊ins.duration / 60⌋ : ℤ) = -(n : ℤ) := by
        rw [hn, show (-(60 * (n : ℚ))) / 60 = ((-(n : ℤ) : ℤ) : ℚ) by push_cast; ring,
          Int.floor_intCast]
      rw [remaining_time, pyMod, hfl, hn]
      push_cast
      ring
  · intro beats
    rw [generate_and_store_beat_length, hchunks]
    rcases em (0 < remaining_time ins.duration) with hr | hr
    · rw [if_pos hr, if_pos hr]
      simp
    · rw [if_neg hr, if_neg hr]
      simp

/-- C10 witness: at duration −30 the remainder is 30, so building from
the empty buffer appends `2 · ⌈30 · 44100⌉ = 2 · 1323000` samples — 30
seconds of audio. -/
theorem C10_negative_duration_witness :
    (generate_and_store_beat (⟨440, 444, -30, -20⟩ : Instruction) []).length =
      2 * 1323000 := by
  have h : (generate_and_store_beat (⟨440, 444, -30, -20⟩ : Instruction) []).length =
      ([] : List ℤ).length +
        (if 0 < remaining_time (-30 : ℚ)
         then 2 * ⌈remaining_time (-30 : ℚ) * (44100 : ℚ)⌉₊ else 0) :=
    (C10_negative_duration ⟨440, 444, -30, -20⟩ (by norm_num)).2.2.2.2.2 []
  have hrem : remaining_time (-30 : ℚ) = 30 := by
    have hfl : (⌊(-30 : ℚ) / 60⌋ : ℤ) = -1 := by
      rw [show ((-30 : ℚ)) / 60 = -(1/2 : ℚ) by norm_num, Int.floor_eq_iff]
      norm_num
    rw [remaining_time, pyMod, hfl]
    push_cast
    ring
  rw [h, hrem, if_pos (by norm_num)]
  norm_num

end Pynaural
